import Mathlib

/-!
Verification development for the RAG engine of AutoFeatureGenie
(`backend/rag_engine.py`).

The Python module is shallowly embedded:

* Python strings are `List Char` (`PyStr`): Python slicing and `len` act on
  code points, which `List Char` models exactly.
* The filesystem is an association list from path strings to files (`FS`);
  a file is either a UTF-8 text file, a pickle of the pair
  `(faiss index, id→text dict)` — the only value this program ever pickles —
  or corrupt/truncated bytes.
* The sentence-transformers model is an explicit parameter
  `enc : PyStr → List Int`: a pure (deterministic) embedding function, as the
  pretrained model is.  `model.encode(batch)` is `batch.map enc`; the numpy
  `shape` of the resulting matrix is modelled by `npShape`.
* `faiss.IndexFlatL2` is modelled from its documented behaviour: an exhaustive
  (flat) structure storing vectors in insertion order; `search` returns the
  ids of the `k` nearest vectors by ascending squared L2 distance (ties by
  lower id), padded with the sentinel `-1` when `k` exceeds the number of
  stored vectors.
* Python exceptions are the `PyError` inductive; it also carries the typed
  error taxonomy named by the specification (`EmptyCorpusError`, …) so that
  claims about those errors are statable, but the embedded code only ever
  produces the raw Python errors.
-/

/-- Python strings, as sequences of code points. -/
abbrev PyStr : Type := List Char

instance {ε α : Type} [DecidableEq ε] [DecidableEq α] :
    DecidableEq (Except ε α) :=
  fun a b =>
    match a, b with
    | Except.ok x, Except.ok y =>
        if h : x = y then isTrue (congrArg Except.ok h)
        else isFalse (fun hh => h (Except.ok.inj hh))
    | Except.error x, Except.error y =>
        if h : x = y then isTrue (congrArg Except.error h)
        else isFalse (fun hh => h (Except.error.inj hh))
    | Except.ok _, Except.error _ => isFalse (fun hh => Except.noConfusion hh)
    | Except.error _, Except.ok _ => isFalse (fun hh => Except.noConfusion hh)

/-- Whether a character list begins with the given pattern. -/
def chBegins : List Char → List Char → Bool
  | _, [] => true
  | [], _ :: _ => false
  | a :: s, b :: p => a == b && chBegins s p

/-- Whether a character list finishes with the given pattern. -/
def chFinishes (s p : List Char) : Bool :=
  chBegins s.reverse p.reverse

/-- Python exceptions that the embedded code can raise, together with the
typed error taxonomy named by the specification (which the source never
defines nor raises). -/
inductive PyError where
  | indexError
  | attributeError
  | fileNotFoundError
  | unpicklingError
  | keyError
  | emptyCorpusError
  | persistenceError
  | indexNotLoadedError
  | corpusReadError
  deriving DecidableEq, Repr

/-- Model of `faiss.IndexFlatL2`: the dimensionality it was constructed with
and the stored vectors in insertion order (the id of a vector is its
position). -/
structure FaissIndexFlatL2 where
  d : Nat
  vectors : List (List Int)
  deriving DecidableEq, Repr

/-- Squared L2 distance between two vectors (faiss `IndexFlatL2` ranks by
squared Euclidean distance; squaring preserves the ranking). -/
def sqDist (a b : List Int) : Int :=
  (List.zipWith (fun x y => (x - y) * (x - y)) a b).sum

/-- Comparison key used by the flat-index model: ascending distance, ties
broken by lower id. -/
def keyLe (p q : Int × Nat) : Bool :=
  decide (p.1 < q.1) || (decide (p.1 = q.1) && decide (p.2 ≤ q.2))

/-- The comparison key as a decidable relation, for sorting. -/
def keyRel (p q : Int × Nat) : Prop := keyLe p q = true

instance : DecidableRel keyRel := fun p q => instDecidableEqBool (keyLe p q) true

/-- Model of `faiss.Index.search` (restricted to one query vector) for a flat
L2 index: ids of the `k` nearest stored vectors by ascending squared L2
distance, ties by lower id; when fewer than `k` vectors are stored the result
is padded with the sentinel `-1`, as faiss does. -/
def FaissIndexFlatL2.search (ix : FaissIndexFlatL2) (q : List Int) (k : Nat) :
    List Int :=
  let scored := ix.vectors.enum.map (fun p => (sqDist q p.2, p.1))
  let sorted := List.insertionSort keyRel scored
  let top := (sorted.take k).map (fun p => ((p.2 : Nat) : Int))
  top ++ List.replicate (k - top.length) (-1)

/-- A file in the modelled filesystem: a UTF-8 text file, a pickle of the
pair `(index, id_to_text)` (the only object this program pickles), or
corrupt/truncated bytes (which `pickle.load` rejects). -/
inductive PFile where
  | text : PyStr → PFile
  | pickle : FaissIndexFlatL2 → List (Nat × PyStr) → PFile
  | corrupt : PFile
  deriving DecidableEq, Repr

/-- The filesystem: an association list from path to file; earlier entries
shadow nothing because `setFile` replaces in place. -/
abbrev FS : Type := List (String × PFile)

/-- Read the file at a path. -/
def getFile (fs : FS) (p : String) : Option PFile :=
  match fs with
  | [] => none
  | q :: rest => if q.1 = p then some q.2 else getFile rest p

/-- Write (create or overwrite) the file at a path, as `open(path, "wb")`
does. -/
def setFile (fs : FS) (p : String) (v : PFile) : FS :=
  match fs with
  | [] => [(p, v)]
  | q :: rest => if q.1 = p then (p, v) :: rest else q :: setFile rest p v

/-- The numpy `shape` of a matrix built from a list of rows: `np.asarray` of
an empty list has shape `(0,)`, so `shape[1]` is out of range for an empty
batch. -/
def npShape (m : List (List Int)) : List Nat :=
  match m with
  | [] => [0]
  | r :: _ => [m.length, r.length]

/-- The fixed artifact path `os.path.join("backend", "vectorstore.pkl")`. -/
def vectorstorePath : String := "backend/vectorstore.pkl"

/-- `text[i:i+300] for i in range(0, len(text), 300)`: Python
`range(0, stop, step)` for positive `step` has `⌈stop/step⌉` elements. -/
def pyRange0 (stop step : Nat) : List Nat :=
  (List.range ((stop + step - 1) / step)).map (fun k => k * step)

/-- The chunk comprehension of `load_and_split_docs`:
`[text[i:i+300] for i in range(0, len(text), 300)]`. -/
def splitChunks (text : PyStr) : List PyStr :=
  (pyRange0 (List.length text) 300).map (fun i => (List.drop i text).take 300)

/-- The in-memory state of a `RAGEngine` instance: `doc_folder`, the optional
faiss index (`None` before `embed_and_store`/`load_index`), the accumulated
`text_chunks`, and the `id_to_text` dict as an association list with the keys
in insertion order (Python dicts preserve insertion order). -/
structure RAGEngine where
  doc_folder : String
  index : Option FaissIndexFlatL2
  text_chunks : List PyStr
  id_to_text : List (Nat × PyStr)
  deriving DecidableEq, Repr

/-- `RAGEngine.__init__`: stores the folder; no index, no chunks, empty
dict. -/
def RAGEngine.make (doc_folder : String) : RAGEngine :=
  { doc_folder := doc_folder, index := none, text_chunks := [], id_to_text := [] }

/-- `Path(folder).glob("*.txt")` followed by a UTF-8 read of each match: the
text files directly under `folder` whose name ends in `.txt`, in filesystem
enumeration order. -/
def globTxt (fs : FS) (folder : String) : List PyStr :=
  fs.filterMap (fun pf =>
    match pf with
    | (p, PFile.text s) =>
        if chBegins p.toList (folder ++ "/").toList
            && chFinishes p.toList ".txt".toList then some s else none
    | _ => none)

/-- `RAGEngine.load_and_split_docs`: for each matched `.txt` file, read it,
split it into 300-character chunks and `extend` `self.text_chunks`.  The
filesystem is returned unchanged: the loader performs no writes. -/
def RAGEngine.load_and_split_docs (e : RAGEngine) (fs : FS) : RAGEngine × FS :=
  ((globTxt fs e.doc_folder).foldl
      (fun acc text => { acc with text_chunks := acc.text_chunks ++ splitChunks text })
      e,
    fs)

/-- Python dict lookup `self.id_to_text[i]` with an integer (possibly
negative numpy) key: `KeyError` when the key is absent. -/
def dictFind (d : List (Nat × PyStr)) (i : Int) : Except PyError PyStr :=
  match d.find? (fun p => ((p.1 : Nat) : Int) == i) with
  | some p => Except.ok p.2
  | none => Except.error PyError.keyError

/-- `RAGEngine.embed_and_store`: embed all chunks in one batch, build
`IndexFlatL2(embeddings.shape[1])`, `add` the embeddings, rebuild
`id_to_text` by `enumerate`, and pickle the pair `(index, id_to_text)` to the
fixed path `backend/vectorstore.pkl`.  On an empty batch `shape[1]` raises
`IndexError` (the shape is `(0,)`). -/
def RAGEngine.embed_and_store (enc : PyStr → List Int) (e : RAGEngine)
    (fs : FS) : Except PyError (RAGEngine × FS) :=
  let embeddings := e.text_chunks.map enc
  match (npShape embeddings)[1]? with
  | none => Except.error PyError.indexError
  | some d =>
      let ix : FaissIndexFlatL2 := { d := d, vectors := embeddings }
      let m := e.text_chunks.enum
      Except.ok ({ e with index := some ix, id_to_text := m },
        setFile fs vectorstorePath (PFile.pickle ix m))

/-- `RAGEngine.load_index`: `open` then `pickle.load` of the fixed path.  A
missing file raises `FileNotFoundError`; bytes that are not a pickle of the
expected pair raise `UnpicklingError`; on success the in-memory index and
dict are replaced. -/
def RAGEngine.load_index (e : RAGEngine) (fs : FS) :
    Except PyError (RAGEngine × FS) :=
  match getFile fs vectorstorePath with
  | none => Except.error PyError.fileNotFoundError
  | some (PFile.pickle ix m) =>
      Except.ok ({ e with index := some ix, id_to_text := m }, fs)
  | some _ => Except.error PyError.unpicklingError

/-- `RAGEngine.search`: embed the query, run the faiss search, and translate
ids to text, skipping the `-1` sentinel:
`[self.id_to_text[i] for i in I[0] if i != -1]`.  On an unbuilt engine
`self.index` is `None` and `None.search` raises `AttributeError`. -/
def RAGEngine.search (enc : PyStr → List Int) (e : RAGEngine) (query : PyStr)
    (top_k : Nat) : Except PyError (List PyStr) :=
  match e.index with
  | none => Except.error PyError.attributeError
  | some ix =>
      let ids := ix.search (enc query) top_k
      (ids.filter (fun i => i != -1)).mapM (dictFind e.id_to_text)

/-! ### Concrete instances used by the closed examples -/

/-- A deterministic stand-in embedding function for concrete evaluations:
one dimension, the character count of the text. -/
def enc0 : PyStr → List Int := fun s => [(s.length : Int)]

/-- A two-chunk engine state, as left by `__init__` plus two chunks. -/
def engA : RAGEngine :=
  { doc_folder := "docs", index := none,
    text_chunks := [['a'], ['b', 'b']], id_to_text := [] }

/-- The faiss index that `embed_and_store` builds from `engA` under
`enc0`. -/
def ixA : FaissIndexFlatL2 := { d := 1, vectors := [[1], [2]] }

/-- The dict that `embed_and_store` builds from `engA`. -/
def mA : List (Nat × PyStr) := [(0, ['a']), (1, ['b', 'b'])]

/-- The engine state after `embed_and_store` on `engA`. -/
def engA1 : RAGEngine :=
  { doc_folder := "docs", index := some ixA,
    text_chunks := [['a'], ['b', 'b']], id_to_text := mA }

/-- The filesystem after `embed_and_store` on `engA`, starting from an empty
filesystem. -/
def fsA1 : FS := [(vectorstorePath, PFile.pickle ixA mA)]

/-- An engine with no chunks loaded. -/
def engEmpty : RAGEngine :=
  { doc_folder := "docs", index := none, text_chunks := [], id_to_text := [] }

/-- Contents of the first sample document. -/
def txtA : PyStr := ['a', 'a', 'a', 'a']

/-- Contents of the second sample document. -/
def txtB : PyStr := ['b', 'b']

/-- A tiny document folder: two text files under `docs/`. -/
def fsDocs : FS :=
  [("docs/a.txt", PFile.text txtA), ("docs/b.txt", PFile.text txtB)]

/-! ### Chunking lemmas

`splitChunks` is the literal comprehension from the source; `chunksRec` is a
recursive reformulation that the structural proofs go through. -/

/-- Recursive reformulation of the 300-character chunking. -/
def chunksRec (t : PyStr) : List PyStr :=
  if h : t = [] then [] else t.take 300 :: chunksRec (t.drop 300)
termination_by t.length
decreasing_by
  have := List.length_pos.mpr h
  simp [List.length_drop]
  omega

theorem splitChunks_eq_chunksRec (t : PyStr) : splitChunks t = chunksRec t := by
  induction t using chunksRec.induct with
  | case1 => simp [splitChunks, pyRange0, chunksRec]
  | case2 t h ih =>
      have hn : 0 < t.length := List.length_pos.mpr h
      rw [chunksRec, dif_neg h, ← ih]
      show (pyRange0 t.length 300).map (fun i => (List.drop i t).take 300)
          = t.take 300 :: (pyRange0 (t.drop 300).length 300).map
              (fun i => (List.drop i (t.drop 300)).take 300)
      have hq : (t.length + 300 - 1) / 300 = ((t.drop 300).length + 300 - 1) / 300 + 1 := by
        simp only [List.length_drop]
        omega
      unfold pyRange0
      rw [hq, List.range_succ_eq_map]
      simp only [List.map_cons, List.map_map]
      refine congrArg₂ List.cons ?_ ?_
  -- head chunk: `(t.drop 0).take 300 = t.take 300`
      · simp
  -- tail chunks: shift the offset by 300
      · refine List.map_congr_left ?_
        intro k _
        simp only [Function.comp_apply, List.drop_drop]
        congr 2
        simp [Nat.succ_eq_add_one]
        ring

theorem flatten_chunksRec (t : PyStr) : (chunksRec t).flatten = t := by
  induction t using chunksRec.induct with
  | case1 => simp [chunksRec]
  | case2 t h ih =>
      rw [chunksRec, dif_neg h]
      simp [ih]

theorem length_chunksRec (t : PyStr) :
    (chunksRec t).length = (t.length + 299) / 300 := by
  induction t using chunksRec.induct with
  | case1 => simp [chunksRec]
  | case2 t h ih =>
      have hn : 0 < t.length := List.length_pos.mpr h
      rw [chunksRec, dif_neg h]
      simp only [List.length_cons, ih, List.length_drop]
      omega

theorem chunksRec_drop_ne_nil_iff (t : PyStr) :
    chunksRec t ≠ [] ↔ t ≠ [] := by
  constructor
  · intro h2 hnil
    rw [chunksRec, dif_pos hnil] at h2
    exact h2 rfl
  · intro h2
    rw [chunksRec, dif_neg h2]
    exact List.cons_ne_nil _ _

theorem length_mem_dropLast_chunksRec (t : PyStr) :
    ∀ c ∈ (chunksRec t).dropLast, c.length = 300 := by
  induction t using chunksRec.induct with
  | case1 =>
      intro c hc
      simp [chunksRec] at hc
  | case2 t h ih =>
      intro c hc
      rw [chunksRec, dif_neg h] at hc
      by_cases h2 : chunksRec (t.drop 300) = []
      · rw [h2] at hc
        simp at hc
      · rw [List.dropLast_cons_of_ne_nil h2] at hc
        rcases List.mem_cons.mp hc with rfl | hc2
        · have hd : t.drop 300 ≠ [] := (chunksRec_drop_ne_nil_iff _).mp h2
          have h300 : 300 ≤ t.length := by
            by_contra hlt
            exact hd (List.drop_eq_nil_of_le (by omega))
          simp [List.length_take]
          omega
        · exact ih c hc2

theorem getLast_chunksRec (t : PyStr) (h : t ≠ []) :
    ∃ c, (chunksRec t).getLast? = some c ∧
      c.length = t.length - 300 * ((chunksRec t).length - 1) ∧
      0 < c.length ∧ c.length ≤ 300 := by
  induction t using chunksRec.induct with
  | case1 => exact absurd rfl h
  | case2 t h0 ih =>
      have hn : 0 < t.length := List.length_pos.mpr h0
      by_cases h2 : t.drop 300 = []
      · have hz : chunksRec (t.drop 300) = [] := by rw [chunksRec, dif_pos h2]
        have hle : t.length ≤ 300 := by
          have h3 := congrArg List.length h2
          simp at h3
          omega
        rw [chunksRec, dif_neg h0, hz]
        refine ⟨t.take 300, rfl, ?_, ?_, ?_⟩
        · simp [List.length_take]
          omega
        · simp [List.length_take]
          omega
        · simp [List.length_take]
      · obtain ⟨c, hc1, hc2, hc3, hc4⟩ := ih h2
        have hne : chunksRec (t.drop 300) ≠ [] :=
          (chunksRec_drop_ne_nil_iff _).mpr h2
        have hL : 0 < (chunksRec (t.drop 300)).length := List.length_pos.mpr hne
        have h300 : 300 < t.length := by
          by_contra hlt
          exact h2 (List.drop_eq_nil_of_le (by omega))
        rw [chunksRec, dif_neg h0]
        refine ⟨c, ?_, ?_, hc3, hc4⟩
        · cases hk : chunksRec (t.drop 300) with
          | nil => exact absurd hk hne
          | cons y l =>
              rw [hk] at hc1
              rw [List.getLast?_cons_cons]
              exact hc1
        · simp only [List.length_cons]
          rw [hc2]
          simp only [List.length_drop]
          omega

/-! ### Loader lemmas -/

theorem loader_foldl_eq (e : RAGEngine) (files : List PyStr) :
    files.foldl
        (fun acc text => { acc with text_chunks := acc.text_chunks ++ splitChunks text }) e
      = { e with text_chunks := e.text_chunks ++ (files.map splitChunks).flatten } := by
  induction files generalizing e with
  | nil => simp
  | cons a l ih =>
      rw [List.foldl_cons, ih]
      simp [List.append_assoc]

theorem flatten_map_splitChunks (files : List PyStr) :
    ((files.map splitChunks).flatten).flatten = files.flatten := by
  induction files with
  | nil => rfl
  | cons a l ih =>
      simp only [List.map_cons, List.flatten_cons, List.flatten_append, ih]
      rw [splitChunks_eq_chunksRec, flatten_chunksRec]

/-! ### Filesystem lemmas -/

theorem getFile_setFile_self (fs : FS) (p : String) (v : PFile) :
    getFile (setFile fs p v) p = some v := by
  induction fs with
  | nil => simp [setFile, getFile]
  | cons q rest ih =>
      by_cases h : q.1 = p
      · simp [setFile, h, getFile]
      · simp [setFile, h, getFile, ih]

theorem getFile_setFile_ne (fs : FS) (p p' : String) (v : PFile)
    (h : p' ≠ p) :
    getFile (setFile fs p v) p' = getFile fs p' := by
  have h' : ¬ p = p' := fun hh => h hh.symm
  induction fs with
  | nil => simp [setFile, getFile, h']
  | cons q rest ih =>
      by_cases h2 : q.1 = p
      · simp [setFile, h2, getFile, h']
      · simp [setFile, h2, getFile, ih]

/-! ### Characterization of `embed_and_store` on a nonempty corpus -/

theorem embed_and_store_ok (enc : PyStr → List Int) (e : RAGEngine) (fs : FS)
    (c0 : PyStr) (cs : List PyStr) (hc : e.text_chunks = c0 :: cs) :
    e.embed_and_store enc fs = Except.ok
      ({ e with
          index := some { d := (enc c0).length, vectors := e.text_chunks.map enc },
          id_to_text := e.text_chunks.enum },
        setFile fs vectorstorePath
          (PFile.pickle { d := (enc c0).length, vectors := e.text_chunks.map enc }
            e.text_chunks.enum)) := by
  simp [RAGEngine.embed_and_store, hc, npShape]

theorem embed_and_store_nil (enc : PyStr → List Int) (e : RAGEngine) (fs : FS)
    (hc : e.text_chunks = []) :
    e.embed_and_store enc fs = Except.error PyError.indexError := by
  simp [RAGEngine.embed_and_store, hc, npShape]

theorem search_congr (enc : PyStr → List Int) (e e' : RAGEngine)
    (h1 : e.index = e'.index) (h2 : e.id_to_text = e'.id_to_text) :
    ∀ q k, e.search enc q k = e'.search enc q k := by
  intro q k
  rw [RAGEngine.search, RAGEngine.search, h1, h2]

/-! ### Ordering lemmas for the flat-index comparison key -/

theorem keyLe_trans (a b c : Int × Nat) (h1 : keyLe a b = true)
    (h2 : keyLe b c = true) : keyLe a c = true := by
  simp only [keyLe, Bool.or_eq_true, Bool.and_eq_true, decide_eq_true_eq] at h1 h2 ⊢
  rcases h1 with h1 | ⟨h1, h1'⟩ <;> rcases h2 with h2 | ⟨h2, h2'⟩ <;> omega

theorem keyLe_total (a b : Int × Nat) : (keyLe a b || keyLe b a) = true := by
  simp only [keyLe, Bool.or_eq_true, Bool.and_eq_true, decide_eq_true_eq]
  omega

instance : IsTotal (Int × Nat) keyRel :=
  ⟨fun a b => by
    have h := keyLe_total a b
    rcases Bool.or_eq_true_iff.mp h with h1 | h1
    · exact Or.inl h1
    · exact Or.inr h1⟩

instance : IsTrans (Int × Nat) keyRel :=
  ⟨fun a b c hab hbc => keyLe_trans a b c hab hbc⟩

/-! ### Lemmas about the scored list of the flat-index model -/

theorem scored_map_snd (q : List Int) (vs : List (List Int)) :
    (vs.enum.map (fun p => (sqDist q p.2, p.1))).map Prod.snd
      = List.range vs.length := by
  rw [List.map_map]
  exact List.enum_map_fst vs

theorem mem_scored (q : List Int) (vs : List (List Int)) (p : Int × Nat)
    (hp : p ∈ vs.enum.map (fun r => (sqDist q r.2, r.1))) :
    p.2 < vs.length ∧ p.1 = sqDist q (vs.getD p.2 []) := by
  rcases List.mem_map.mp hp with ⟨r, hr, hrp⟩
  have h2 := List.mem_enum_iff_getElem?.mp hr
  have hlt : r.1 < vs.length := by
    rcases List.getElem?_eq_some.mp h2 with ⟨h, _⟩
    exact h
  subst hrp
  refine ⟨hlt, ?_⟩
  have : vs.getD r.1 [] = r.2 := by
    rw [List.getD_eq_getElem vs [] hlt]
    rcases List.getElem?_eq_some.mp h2 with ⟨h, hh⟩
    exact hh
  rw [this]

/-! ### The dict built by `enumerate` resolves every id below the corpus
size -/

theorem find_enumFrom (L : List PyStr) : ∀ (s i : Nat), i < L.length →
    (List.enumFrom s L).find? (fun p => ((p.1 : Nat) : Int) == ((s + i : Nat) : Int))
      = some (s + i, L.getD i []) := by
  induction L with
  | nil =>
      intro s i hi
      simp at hi
  | cons a l ih =>
      intro s i hi
      cases i with
      | zero =>
          simp [List.enumFrom, List.find?]
      | succ i =>
          have hne : ¬ (((s : Nat) : Int) == ((s + (i + 1) : Nat) : Int)) = true := by
            simp
            omega
          have hstep : s + (i + 1) = (s + 1) + i := by omega
          rw [List.enumFrom, List.find?]
          simp only [hne]
          rw [hstep]
          have := ih (s + 1) i (by simpa using hi)
          simpa using this

theorem dictFind_enum (L : List PyStr) (i : Nat) (hi : i < L.length) :
    dictFind L.enum ((i : Nat) : Int) = Except.ok (L.getD i []) := by
  have h0 : (0 : Nat) + i = i := by omega
  have := find_enumFrom L 0 i hi
  rw [h0] at this
  rw [dictFind]
  rw [show L.enum = List.enumFrom 0 L from rfl, this]

theorem mapM_dictFind_ok (d : List (Nat × PyStr)) (g : Int → PyStr)
    (l : List Int) (h : ∀ a ∈ l, dictFind d a = Except.ok (g a)) :
    l.mapM (dictFind d) = Except.ok (l.map g) := by
  induction l with
  | nil => rfl
  | cons a l ih =>
      rw [List.mapM_cons, h a (List.mem_cons_self a l),
        ih (fun b hb => h b (List.mem_cons_of_mem a hb))]
      rfl

theorem map_getD_range (L : List PyStr) :
    (List.range L.length).map (fun j => L.getD j []) = L := by
  refine List.ext_getElem (by simp) ?_
  intro n h1 h2
  simp only [List.getElem_map, List.getElem_range]
  rw [List.getD_eq_getElem L [] (by simpa using h2)]

/-- Characterization of `search` on a built engine: the index stores the
embeddings of `L` in order and the dict is `enumerate(L)`.  The returned
texts are indexed by a list `ids` of chunk identifiers that is deduplicated,
in-range, sorted by ascending distance with ties by lower id, and beats every
non-returned identifier; when `k` covers the whole corpus, `ids` is a
permutation of `0..n-1`. -/
theorem search_built_core (enc : PyStr → List Int) (L : List PyStr)
    (e : RAGEngine) (ix : FaissIndexFlatL2)
    (hix : e.index = some ix) (hvec : ix.vectors = L.map enc)
    (hmap : e.id_to_text = L.enum) (q : PyStr) (k : Nat) :
    ∃ ids : List Nat,
      e.search enc q k = Except.ok (ids.map (fun j => L.getD j []))
      ∧ (ix.search (enc q) k).filter (fun i => i != -1)
          = ids.map (fun j => ((j : Nat) : Int))
      ∧ ids.length = min k L.length
      ∧ ids.Nodup
      ∧ (∀ j ∈ ids, j < L.length)
      ∧ ids.Pairwise (fun i j =>
          sqDist (enc q) (enc (L.getD i [])) < sqDist (enc q) (enc (L.getD j []))
          ∨ (sqDist (enc q) (enc (L.getD i [])) = sqDist (enc q) (enc (L.getD j []))
              ∧ i < j))
      ∧ (∀ i ∈ ids, ∀ j, j < L.length → j ∉ ids →
          sqDist (enc q) (enc (L.getD i [])) < sqDist (enc q) (enc (L.getD j []))
          ∨ (sqDist (enc q) (enc (L.getD i [])) = sqDist (enc q) (enc (L.getD j []))
              ∧ i < j))
      ∧ (L.length ≤ k → ids.Perm (List.range L.length)) := by
  have hgetDmap : ∀ j, j < L.length → ix.vectors.getD j [] = enc (L.getD j []) := by
    intro j hj
    rw [hvec, List.getD_eq_getElem (L.map enc) [] (by simpa using hj),
      List.getElem_map, ← List.getD_eq_getElem L [] hj]
  set scored := ix.vectors.enum.map (fun p => (sqDist (enc q) p.2, p.1)) with hscored
  set sorted := List.insertionSort keyRel scored with hsorted
  have hperm : sorted.Perm scored := List.perm_insertionSort keyRel scored
  have hsort : List.Pairwise (fun a b => keyLe a b = true) sorted :=
    List.sorted_insertionSort keyRel scored
  have hslen : scored.length = L.length := by
    rw [hscored]
    simp [hvec]
  have hsortlen : sorted.length = L.length := hperm.length_eq.trans hslen
  have hsndeq : scored.map Prod.snd = List.range L.length := by
    rw [hscored, scored_map_snd, hvec, List.length_map]
  have hsndperm : (sorted.map Prod.snd).Perm (List.range L.length) := by
    rw [← hsndeq]
    exact hperm.map Prod.snd
  have hsndnodup : (sorted.map Prod.snd).Nodup :=
    hsndperm.nodup_iff.mpr (List.nodup_range L.length)
  have hcanon : ∀ p ∈ sorted, p.2 < L.length
      ∧ p.1 = sqDist (enc q) (enc (L.getD p.2 [])) := by
    intro p hp
    obtain ⟨h1, h2⟩ := mem_scored (enc q) ix.vectors p (hperm.mem_iff.mp hp)
    have h1' : p.2 < L.length := by
      rw [hvec, List.length_map] at h1
      exact h1
    exact ⟨h1', by rw [h2, hgetDmap p.2 h1']⟩
  have htop : (sorted.take k).map (fun p => ((p.2 : Nat) : Int))
      = ((sorted.take k).map Prod.snd).map (fun j => ((j : Nat) : Int)) := by
    rw [List.map_map]
    rfl
  have hfa : FaissIndexFlatL2.search ix (enc q) k
      = (sorted.take k).map (fun p => ((p.2 : Nat) : Int))
        ++ List.replicate (k - ((sorted.take k).map (fun p => ((p.2 : Nat) : Int))).length) (-1) := rfl
  have hfilter : ((((sorted.take k).map Prod.snd).map (fun j => ((j : Nat) : Int)))
        ++ List.replicate (k - (((sorted.take k).map Prod.snd).map (fun j => ((j : Nat) : Int))).length) (-1)).filter (fun i => i != -1)
      = ((sorted.take k).map Prod.snd).map (fun j => ((j : Nat) : Int)) := by
    rw [List.filter_append]
    rw [List.filter_replicate]
    have hm1 : (((-1 : Int)) != -1) = false := by simp
    rw [hm1]
    simp only [Bool.false_eq_true, if_false, List.append_nil]
    refine List.filter_eq_self.mpr ?_
    intro a ha
    rcases List.mem_map.mp ha with ⟨j, _, rfl⟩
    have : (0 : Int) ≤ (j : Int) := Int.natCast_nonneg j
    simp only [bne_iff_ne, ne_eq]
    omega
  refine ⟨(sorted.take k).map Prod.snd, ?_, ?_, ?_, ?_, ?_, ?_, ?_, ?_⟩
  · -- result computation
    simp only [RAGEngine.search, hix]
    rw [hfa, htop]
    rw [hfilter, hmap]
    have := mapM_dictFind_ok L.enum (fun i => L.getD i.toNat [])
      (((sorted.take k).map Prod.snd).map (fun j => ((j : Nat) : Int))) ?_
    · rw [this, List.map_map]
      rfl
    · intro a ha
      rcases List.mem_map.mp ha with ⟨j, hj, rfl⟩
      rcases List.mem_map.mp hj with ⟨p, hp, rfl⟩
      have hlt := (hcanon p ((List.take_sublist k sorted).subset hp)).1
      rw [dictFind_enum L p.2 hlt]
      simp [Int.toNat_ofNat]
  · -- the sentinel filter keeps exactly the selected ids
    rw [hfa, htop, hfilter]
  · rw [List.length_map, List.length_take, hsortlen]
  · rw [List.map_take]
    exact ((List.take_sublist k (sorted.map Prod.snd)).nodup) hsndnodup
  · intro j hj
    rcases List.mem_map.mp hj with ⟨p, hp, rfl⟩
    exact (hcanon p ((List.take_sublist k sorted).subset hp)).1
  · -- internal ordering
    have hpw : (sorted.take k).Pairwise (fun a b => keyLe a b = true) := hsort.take
    have hnodup_tk : ((sorted.take k).map Prod.snd).Nodup := by
      rw [List.map_take]
      exact ((List.take_sublist k (sorted.map Prod.snd)).nodup) hsndnodup
    have hne : (sorted.take k).Pairwise (fun a b => a.2 ≠ b.2) :=
      List.pairwise_map.mp hnodup_tk
    refine List.pairwise_map.mpr ?_
    refine (hpw.and hne).imp_of_mem ?_
    intro a b ha hb hab
    obtain ⟨hle, hne2⟩ := hab
    have hca := hcanon a ((List.take_sublist k sorted).subset ha)
    have hcb := hcanon b ((List.take_sublist k sorted).subset hb)
    simp only [keyLe, Bool.or_eq_true, Bool.and_eq_true, decide_eq_true_eq] at hle
    rw [hca.2, hcb.2] at hle
    rcases hle with h | ⟨h, h'⟩
    · exact Or.inl h
    · exact Or.inr ⟨h, lt_of_le_of_ne h' hne2⟩
  · -- selected ids beat unselected ids
    intro i hi j hj hjnot
    rcases List.mem_map.mp hi with ⟨pi, hpi, rfl⟩
    have hci := hcanon pi ((List.take_sublist k sorted).subset hpi)
    have hjm : ((sqDist (enc q) (enc (L.getD j [])), j) : Int × Nat) ∈ scored := by
      rw [hscored]
      refine List.mem_map.mpr ⟨(j, enc (L.getD j [])), ?_, rfl⟩
      refine List.mem_enum_iff_getElem?.mpr ?_
      rw [hvec, List.getElem?_map, List.getElem?_eq_getElem hj]
      rw [List.getD_eq_getElem L [] hj]
      rfl
    have hjs : ((sqDist (enc q) (enc (L.getD j [])), j) : Int × Nat) ∈ sorted :=
      hperm.mem_iff.mpr hjm
    have hsplit : (sorted.take k) ++ (sorted.drop k) = sorted :=
      List.take_append_drop k sorted
    have hjs2 : ((sqDist (enc q) (enc (L.getD j [])), j) : Int × Nat)
        ∈ (sorted.take k) ++ (sorted.drop k) := by
      rw [hsplit]
      exact hjs
    rcases List.mem_append.mp hjs2 with hin | hin
    · exact absurd (List.mem_map.mpr ⟨_, hin, rfl⟩) hjnot
    · have hs2 : List.Pairwise (fun a b => keyLe a b = true)
          ((sorted.take k) ++ (sorted.drop k)) := by
        rw [hsplit]
        exact hsort
      obtain ⟨-, -, hcross⟩ := List.pairwise_append.mp hs2
      have hkle := hcross pi hpi _ hin
      have hij : pi.2 ≠ j := by
        intro hh
        exact hjnot (hh ▸ List.mem_map.mpr ⟨pi, hpi, rfl⟩)
      simp only [keyLe, Bool.or_eq_true, Bool.and_eq_true, decide_eq_true_eq] at hkle
      rw [hci.2] at hkle
      rcases hkle with h | ⟨h, h'⟩
      · exact Or.inl h
      · exact Or.inr ⟨h, lt_of_le_of_ne h' hij⟩
  · -- full coverage when k reaches the corpus size
    intro hk
    rw [List.take_of_length_le (by rw [hsortlen]; exact hk)]
    exact hsndperm

/-- The faiss flat search always returns exactly `k` entries: real neighbor
ids first, then `-1` padding. -/
theorem length_faiss_search (ix : FaissIndexFlatL2) (q : List Int) (k : Nat) :
    (ix.search q k).length = k := by
  simp only [FaissIndexFlatL2.search, List.length_append, List.length_map,
    List.length_take, List.length_replicate]
  omega

/-! ### Claims -/

/-- C1: for every index state built by `embed_and_store` (which persists the
index and mapping as part of the build), restoring the persisted artifact
with `load_index` into any engine yields an index and id→text mapping on
which `search` returns, for every query and every `k`, exactly the same
ordered result as on the pre-persist state. -/
theorem c1_persist_restore_roundtrip (enc : PyStr → List Int)
    (e e2 e1 : RAGEngine) (fs fs1 : FS)
    (hb : e.embed_and_store enc fs = Except.ok (e1, fs1)) :
    ∃ e3 : RAGEngine, e2.load_index fs1 = Except.ok (e3, fs1)
      ∧ ∀ (q : PyStr) (k : Nat), e3.search enc q k = e1.search enc q k := by
  cases hc : e.text_chunks with
  | nil =>
      rw [embed_and_store_nil enc e fs hc] at hb
      cases hb
  | cons c0 cs =>
      rw [embed_and_store_ok enc e fs c0 cs hc] at hb
      simp only [Except.ok.injEq, Prod.mk.injEq] at hb
      obtain ⟨he1, hfs1⟩ := hb
      refine ⟨{ e2 with
          index := some { d := (enc c0).length, vectors := e.text_chunks.map enc },
          id_to_text := e.text_chunks.enum }, ?_, ?_⟩
      · simp only [RAGEngine.load_index, ← hfs1, getFile_setFile_self]
      · intro q k
        exact search_congr enc _ e1 (by rw [← he1]) (by rw [← he1]) q k

/-- Witness for C1: a concrete two-chunk build, persisted and restored. -/
theorem c1_witness :
    RAGEngine.embed_and_store enc0 engA [] = Except.ok (engA1, fsA1)
    ∧ ∃ e3 : RAGEngine, RAGEngine.load_index engA fsA1 = Except.ok (e3, fsA1)
        ∧ ∀ (q : PyStr) (k : Nat), e3.search enc0 q k = engA1.search enc0 q k :=
  ⟨by decide, c1_persist_restore_roundtrip enc0 engA engA engA1 [] fsA1 (by decide)⟩

/-- C2: after every successful build, identifiers `0..n-1` are assigned in
input order, the dict maps key `i` to the `i`-th chunk, the vector stored at
position (= identifier) `i` is the embedding of that same chunk, and the
persisted artifact serializes exactly this index and this mapping together as
one unit. -/
theorem c2_ids_co_indexed (enc : PyStr → List Int) (e e1 : RAGEngine)
    (fs fs1 : FS) (hb : e.embed_and_store enc fs = Except.ok (e1, fs1)) :
    e1.id_to_text = e.text_chunks.enum
    ∧ e1.id_to_text.map Prod.fst = List.range e.text_chunks.length
    ∧ (∀ i, i < e.text_chunks.length →
        e1.id_to_text[i]? = some (i, e.text_chunks.getD i []))
    ∧ ∃ ix : FaissIndexFlatL2, e1.index = some ix
        ∧ ix.vectors = e.text_chunks.map enc
        ∧ ix.vectors.length = e1.id_to_text.length
        ∧ (∀ i, i < e.text_chunks.length →
            ix.vectors[i]? = some (enc (e.text_chunks.getD i [])))
        ∧ getFile fs1 vectorstorePath = some (PFile.pickle ix e1.id_to_text) := by
  have hne : e.text_chunks ≠ [] := by
    intro hc
    rw [embed_and_store_nil enc e fs hc] at hb
    cases hb
  obtain ⟨c0, cs, hc⟩ : ∃ c0 cs, e.text_chunks = c0 :: cs := by
    cases hx : e.text_chunks with
    | nil => exact absurd hx hne
    | cons a l => exact ⟨a, l, rfl⟩
  rw [embed_and_store_ok enc e fs c0 cs hc] at hb
  simp only [Except.ok.injEq, Prod.mk.injEq] at hb
  obtain ⟨he1, hfs1⟩ := hb
  subst he1
  subst hfs1
  refine ⟨rfl, List.enum_map_fst _, ?_, ?_⟩
  · intro i hi
    rw [List.getElem?_enum, List.getElem?_eq_getElem hi,
      List.getD_eq_getElem _ _ hi]
    rfl
  · refine ⟨_, rfl, rfl, by simp, ?_, getFile_setFile_self _ _ _⟩
    intro i hi
    rw [List.getElem?_map, List.getElem?_eq_getElem hi,
      List.getD_eq_getElem _ _ hi]
    rfl

/-- Witness for C2 at the concrete two-chunk build. -/
theorem c2_witness :
    RAGEngine.embed_and_store enc0 engA [] = Except.ok (engA1, fsA1)
    ∧ (engA1.id_to_text = engA.text_chunks.enum
      ∧ engA1.id_to_text.map Prod.fst = List.range engA.text_chunks.length
      ∧ (∀ i, i < engA.text_chunks.length →
          engA1.id_to_text[i]? = some (i, engA.text_chunks.getD i []))
      ∧ ∃ ix : FaissIndexFlatL2, engA1.index = some ix
          ∧ ix.vectors = engA.text_chunks.map enc0
          ∧ ix.vectors.length = engA1.id_to_text.length
          ∧ (∀ i, i < engA.text_chunks.length →
              ix.vectors[i]? = some (enc0 (engA.text_chunks.getD i [])))
          ∧ getFile fsA1 vectorstorePath
              = some (PFile.pickle ix engA1.id_to_text)) :=
  ⟨by decide, c2_ids_co_indexed enc0 engA engA1 [] fsA1 (by decide)⟩

/-- C3: for every directory of text files, the loader splits each file into
`⌈len/300⌉` chunks — every chunk 300 characters except possibly the last of
each file, which holds the (nonempty) remainder — chunks never cross file
boundaries, and the in-order concatenation of the produced chunks equals the
concatenation of the original file contents in file-processing order. -/
theorem c3_loader_chunking (e : RAGEngine) (fs : FS) :
    (e.load_and_split_docs fs).1.text_chunks
        = e.text_chunks ++ ((globTxt fs e.doc_folder).map splitChunks).flatten
    ∧ (∀ t ∈ globTxt fs e.doc_folder,
        (splitChunks t).length = (t.length + 299) / 300
        ∧ (splitChunks t).flatten = t
        ∧ (∀ c ∈ (splitChunks t).dropLast, c.length = 300)
        ∧ (t ≠ [] → ∃ c, (splitChunks t).getLast? = some c
            ∧ c.length = t.length - 300 * ((splitChunks t).length - 1)
            ∧ 0 < c.length ∧ c.length ≤ 300))
    ∧ (((globTxt fs e.doc_folder).map splitChunks).flatten).flatten
        = (globTxt fs e.doc_folder).flatten := by
  refine ⟨?_, ?_, flatten_map_splitChunks _⟩
  · simp [RAGEngine.load_and_split_docs, loader_foldl_eq]
  · intro t _
    rw [splitChunks_eq_chunksRec]
    exact ⟨length_chunksRec t, flatten_chunksRec t,
      length_mem_dropLast_chunksRec t, fun ht => getLast_chunksRec t ht⟩

/-- Witness for C3: the 4-character sample file of the concrete document
folder. -/
theorem c3_witness :
    txtA ∈ globTxt fsDocs engEmpty.doc_folder
    ∧ ((splitChunks txtA).length = (txtA.length + 299) / 300
        ∧ (splitChunks txtA).flatten = txtA
        ∧ (∀ c ∈ (splitChunks txtA).dropLast, c.length = 300)
        ∧ (txtA ≠ [] → ∃ c, (splitChunks txtA).getLast? = some c
            ∧ c.length = txtA.length - 300 * ((splitChunks txtA).length - 1)
            ∧ 0 < c.length ∧ c.length ≤ 300)) :=
  ⟨by decide, (c3_loader_chunking engEmpty fsDocs).2.1 txtA (by decide)⟩

/-- C9: every loader call appends the newly produced chunks to the
pre-existing chunk sequence (repeated calls accumulate, with no replacement
and no deduplication), returns the filesystem unchanged (no writes), and
changes no engine field other than `text_chunks`. -/
theorem c9_loader_appends_no_writes (e : RAGEngine) (fs : FS) :
    (e.load_and_split_docs fs).2 = fs
    ∧ (e.load_and_split_docs fs).1.text_chunks
        = e.text_chunks ++ ((globTxt fs e.doc_folder).map splitChunks).flatten
    ∧ (e.load_and_split_docs fs).1.doc_folder = e.doc_folder
    ∧ (e.load_and_split_docs fs).1.index = e.index
    ∧ (e.load_and_split_docs fs).1.id_to_text = e.id_to_text
    ∧ ((e.load_and_split_docs fs).1.load_and_split_docs fs).1.text_chunks
        = e.text_chunks ++ ((globTxt fs e.doc_folder).map splitChunks).flatten
            ++ ((globTxt fs e.doc_folder).map splitChunks).flatten := by
  simp [RAGEngine.load_and_split_docs, loader_foldl_eq, List.append_assoc]

/-- C4: on a freshly built index, for every query and every `k` with
`1 ≤ k ≤` corpus size, `search` succeeds and returns the texts of `k`
distinct in-range chunk identifiers, ordered by ascending squared L2 distance
between the query embedding and the chunk embeddings with ties broken by
lower identifier, every returned identifier beating every non-returned one;
and repeated calls with identical query and state return identical results. -/
theorem c4_search_topk_order (enc : PyStr → List Int) (e e1 : RAGEngine)
    (fs fs1 : FS) (q : PyStr) (k : Nat)
    (hb : e.embed_and_store enc fs = Except.ok (e1, fs1))
    (hk0 : 0 < k) (hkn : k ≤ e.text_chunks.length) :
    ∃ ids : List Nat,
      e1.search enc q k = Except.ok (ids.map (fun j => e.text_chunks.getD j []))
      ∧ ids.length = k
      ∧ ids.Nodup
      ∧ (∀ j ∈ ids, j < e.text_chunks.length)
      ∧ ids.Pairwise (fun i j =>
          sqDist (enc q) (enc (e.text_chunks.getD i []))
              < sqDist (enc q) (enc (e.text_chunks.getD j []))
          ∨ (sqDist (enc q) (enc (e.text_chunks.getD i []))
              = sqDist (enc q) (enc (e.text_chunks.getD j [])) ∧ i < j))
      ∧ (∀ i ∈ ids, ∀ j, j < e.text_chunks.length → j ∉ ids →
          sqDist (enc q) (enc (e.text_chunks.getD i []))
              < sqDist (enc q) (enc (e.text_chunks.getD j []))
          ∨ (sqDist (enc q) (enc (e.text_chunks.getD i []))
              = sqDist (enc q) (enc (e.text_chunks.getD j [])) ∧ i < j))
      ∧ (∀ r1 r2 : Except PyError (List PyStr),
          e1.search enc q k = r1 → e1.search enc q k = r2 → r1 = r2) := by
  have hne : e.text_chunks ≠ [] := by
    intro hc
    rw [embed_and_store_nil enc e fs hc] at hb
    cases hb
  obtain ⟨c0, cs, hc⟩ : ∃ c0 cs, e.text_chunks = c0 :: cs := by
    cases hx : e.text_chunks with
    | nil => exact absurd hx hne
    | cons a l => exact ⟨a, l, rfl⟩
  rw [embed_and_store_ok enc e fs c0 cs hc] at hb
  simp only [Except.ok.injEq, Prod.mk.injEq] at hb
  obtain ⟨he1, hfs1⟩ := hb
  obtain ⟨ids, h1, hflt, hlen, hnd, hmem, hpw, hbeat, hcov⟩ :=
    search_built_core enc e.text_chunks e1
      { d := (enc c0).length, vectors := e.text_chunks.map enc }
      (by rw [← he1]) rfl (by rw [← he1]) q k
  exact ⟨ids, h1, by rw [hlen]; exact Nat.min_eq_left hkn, hnd, hmem, hpw, hbeat,
    fun r1 r2 hr1 hr2 => by rw [← hr1, ← hr2]⟩

/-- Witness for C4 at the concrete two-chunk build, query `"a"`, `k = 1`. -/
theorem c4_witness :
    RAGEngine.embed_and_store enc0 engA [] = Except.ok (engA1, fsA1)
    ∧ 0 < 1 ∧ 1 ≤ engA.text_chunks.length
    ∧ ∃ ids : List Nat,
        engA1.search enc0 ['a'] 1
            = Except.ok (ids.map (fun j => engA.text_chunks.getD j []))
        ∧ ids.length = 1
        ∧ ids.Nodup
        ∧ (∀ j ∈ ids, j < engA.text_chunks.length)
        ∧ ids.Pairwise (fun i j =>
            sqDist (enc0 ['a']) (enc0 (engA.text_chunks.getD i []))
                < sqDist (enc0 ['a']) (enc0 (engA.text_chunks.getD j []))
            ∨ (sqDist (enc0 ['a']) (enc0 (engA.text_chunks.getD i []))
                = sqDist (enc0 ['a']) (enc0 (engA.text_chunks.getD j [])) ∧ i < j))
        ∧ (∀ i ∈ ids, ∀ j, j < engA.text_chunks.length → j ∉ ids →
            sqDist (enc0 ['a']) (enc0 (engA.text_chunks.getD i []))
                < sqDist (enc0 ['a']) (enc0 (engA.text_chunks.getD j []))
            ∨ (sqDist (enc0 ['a']) (enc0 (engA.text_chunks.getD i []))
                = sqDist (enc0 ['a']) (enc0 (engA.text_chunks.getD j [])) ∧ i < j))
        ∧ (∀ r1 r2 : Except PyError (List PyStr),
            engA1.search enc0 ['a'] 1 = r1 → engA1.search enc0 ['a'] 1 = r2 →
              r1 = r2) :=
  ⟨by decide, by decide, by decide,
    c4_search_topk_order enc0 engA engA1 [] fsA1 ['a'] 1
      (by decide) (by decide) (by decide)⟩

/-- C5: on a built index of `m` chunks and any `k > m`, `search` succeeds and
returns exactly `m` results — a permutation of all stored chunks, no
duplicates, no error.  The underlying exhaustive search pads its
fixed-length-`k` output with the `-1` sentinel; every sentinel is filtered
out before the id→text lookup, so the lookup is never applied to an absent
identifier. -/
theorem c5_k_exceeds_corpus (enc : PyStr → List Int) (e e1 : RAGEngine)
    (fs fs1 : FS) (q : PyStr) (k : Nat)
    (hb : e.embed_and_store enc fs = Except.ok (e1, fs1))
    (hk : e.text_chunks.length < k) :
    ∃ (ix : FaissIndexFlatL2) (res : List PyStr),
      e1.index = some ix
      ∧ e1.search enc q k = Except.ok res
      ∧ res.length = e.text_chunks.length
      ∧ res.Perm e.text_chunks
      ∧ (ix.search (enc q) k).length = k
      ∧ (-1 : Int) ∈ ix.search (enc q) k
      ∧ ((ix.search (enc q) k).filter (fun i => i != -1)).length
          = e.text_chunks.length
      ∧ (-1 : Int) ∉ (ix.search (enc q) k).filter (fun i => i != -1)
      ∧ (∀ i ∈ (ix.search (enc q) k).filter (fun i => i != -1),
          ∃ t, dictFind e1.id_to_text i = Except.ok t) := by
  have hne : e.text_chunks ≠ [] := by
    intro hc
    rw [embed_and_store_nil enc e fs hc] at hb
    cases hb
  obtain ⟨c0, cs, hc⟩ : ∃ c0 cs, e.text_chunks = c0 :: cs := by
    cases hx : e.text_chunks with
    | nil => exact absurd hx hne
    | cons a l => exact ⟨a, l, rfl⟩
  rw [embed_and_store_ok enc e fs c0 cs hc] at hb
  simp only [Except.ok.injEq, Prod.mk.injEq] at hb
  obtain ⟨he1, hfs1⟩ := hb
  obtain ⟨ids, h1, hflt, hlen, hnd, hmem, hpw, hbeat, hcov⟩ :=
    search_built_core enc e.text_chunks e1
      { d := (enc c0).length, vectors := e.text_chunks.map enc }
      (by rw [← he1]) rfl (by rw [← he1]) q k
  have hm : min k e.text_chunks.length = e.text_chunks.length :=
    Nat.min_eq_right (Nat.le_of_lt hk)
  have hperm : ids.Perm (List.range e.text_chunks.length) :=
    hcov (Nat.le_of_lt hk)
  have hfltlen : (((FaissIndexFlatL2.mk (enc c0).length
        (e.text_chunks.map enc)).search (enc q) k).filter
          (fun i => i != -1)).length = e.text_chunks.length := by
    rw [hflt, List.length_map, hlen, hm]
  refine ⟨_, ids.map (fun j => e.text_chunks.getD j []),
    (by rw [← he1]), h1, ?_, ?_, length_faiss_search _ _ _, ?_, hfltlen, ?_, ?_⟩
  · rw [List.length_map, hlen, hm]
  · exact (hperm.map (fun j => e.text_chunks.getD j [])).trans
      (by rw [map_getD_range])
  · -- the padded output does contain the sentinel when k exceeds m
    by_contra hno
    have : ((FaissIndexFlatL2.mk (enc c0).length
        (e.text_chunks.map enc)).search (enc q) k).filter (fun i => i != -1)
        = (FaissIndexFlatL2.mk (enc c0).length
            (e.text_chunks.map enc)).search (enc q) k := by
      refine List.filter_eq_self.mpr ?_
      intro a ha
      simp only [bne_iff_ne, ne_eq]
      intro hEq
      exact hno (hEq ▸ ha)
    rw [this, length_faiss_search] at hfltlen
    omega
  · rw [hflt]
    intro hmm
    rcases List.mem_map.mp hmm with ⟨j, _, hj⟩
    omega
  · rw [hflt]
    intro i hi
    rcases List.mem_map.mp hi with ⟨j, hj, rfl⟩
    refine ⟨e.text_chunks.getD j [], ?_⟩
    have : e1.id_to_text = e.text_chunks.enum := by rw [← he1]
    rw [this]
    exact dictFind_enum e.text_chunks j (hmem j hj)

/-- Witness for C5 at the concrete two-chunk build with `k = 5 > 2`. -/
theorem c5_witness :
    RAGEngine.embed_and_store enc0 engA [] = Except.ok (engA1, fsA1)
    ∧ engA.text_chunks.length < 5
    ∧ ∃ (ix : FaissIndexFlatL2) (res : List PyStr),
        engA1.index = some ix
        ∧ engA1.search enc0 ['a'] 5 = Except.ok res
        ∧ res.length = engA.text_chunks.length
        ∧ res.Perm engA.text_chunks
        ∧ (ix.search (enc0 ['a']) 5).length = 5
        ∧ (-1 : Int) ∈ ix.search (enc0 ['a']) 5
        ∧ ((ix.search (enc0 ['a']) 5).filter (fun i => i != -1)).length
            = engA.text_chunks.length
        ∧ (-1 : Int) ∉ (ix.search (enc0 ['a']) 5).filter (fun i => i != -1)
        ∧ (∀ i ∈ (ix.search (enc0 ['a']) 5).filter (fun i => i != -1),
            ∃ t, dictFind engA1.id_to_text i = Except.ok t) :=
  ⟨by decide, by decide,
    c5_k_exceeds_corpus enc0 engA engA1 [] fsA1 ['a'] 5 (by decide) (by decide)⟩

/-- C6 counterexample: building on an empty chunk sequence does not fail with
the specification's typed `EmptyCorpusError` — the source defines no such
exception; it crashes with the raw `IndexError` from `embeddings.shape[1]`. -/
theorem c6_counterexample :
    ¬ (RAGEngine.embed_and_store enc0 engEmpty []
        = Except.error PyError.emptyCorpusError) := by
  decide

/-- C6 (amended): calling `embed_and_store` when the chunk sequence is empty
always fails — with the untyped `IndexError` raised by `embeddings.shape[1]`
on the zero-row embedding matrix of shape `(0,)` — and never constructs an
index. -/
theorem c6_empty_build_fails (enc : PyStr → List Int) (e : RAGEngine)
    (fs : FS) (hc : e.text_chunks = []) :
    e.embed_and_store enc fs = Except.error PyError.indexError
    ∧ ∀ r, e.embed_and_store enc fs ≠ Except.ok r := by
  have h := embed_and_store_nil enc e fs hc
  refine ⟨h, fun r hr => ?_⟩
  rw [h] at hr
  cases hr

/-- Witness for C6 (amended) at the concrete empty engine. -/
theorem c6_witness :
    engEmpty.text_chunks = []
    ∧ (RAGEngine.embed_and_store enc0 engEmpty []
          = Except.error PyError.indexError
        ∧ ∀ r, RAGEngine.embed_and_store enc0 engEmpty [] ≠ Except.ok r) :=
  ⟨rfl, c6_empty_build_fails enc0 engEmpty [] rfl⟩

/-- C7 counterexample: searching before any build/restore does not fail with
the specification's typed `IndexNotLoadedError` — the source defines no such
exception; `self.index` is `None` and `None.search` raises the raw
`AttributeError`. -/
theorem c7_counterexample :
    ¬ (RAGEngine.search enc0 (RAGEngine.make "docs") ['q'] 3
        = Except.error PyError.indexNotLoadedError) := by
  decide

/-- C7 (amended): calling `search` in the Unbuilt state (no index loaded)
always fails, with the untyped `AttributeError` from `None.search`. -/
theorem c7_unbuilt_search_fails (enc : PyStr → List Int) (e : RAGEngine)
    (q : PyStr) (k : Nat) (h : e.index = none) :
    e.search enc q k = Except.error PyError.attributeError := by
  rw [RAGEngine.search, h]

/-- Witness for C7 (amended) at a freshly constructed engine. -/
theorem c7_witness :
    (RAGEngine.make "docs").index = none
    ∧ RAGEngine.search enc0 (RAGEngine.make "docs") ['q'] 3
        = Except.error PyError.attributeError :=
  ⟨rfl, c7_unbuilt_search_fails enc0 (RAGEngine.make "docs") ['q'] 3 rfl⟩

/-- C8 counterexample: restoring from a missing artifact does not fail with
the specification's typed `PersistenceError` — the source defines no such
exception and wraps nothing; `open` raises the raw `FileNotFoundError`. -/
theorem c8_counterexample :
    ¬ (RAGEngine.load_index (RAGEngine.make "docs") []
        = Except.error PyError.persistenceError) := by
  decide

/-- C8 (amended): `load_index` from a missing artifact raises the raw
`FileNotFoundError`; from corrupt/truncated bytes or a non-pickle file it
raises the raw `UnpicklingError` (not a typed `PersistenceError`); a
successful restore replaces the in-memory index and id→text mapping with the
deserialized pair and leaves the filesystem unchanged. -/
theorem c8_load_index_behavior (e : RAGEngine) (fs : FS) :
    (getFile fs vectorstorePath = none →
      e.load_index fs = Except.error PyError.fileNotFoundError)
    ∧ (getFile fs vectorstorePath = some PFile.corrupt →
      e.load_index fs = Except.error PyError.unpicklingError)
    ∧ (∀ tx, getFile fs vectorstorePath = some (PFile.text tx) →
      e.load_index fs = Except.error PyError.unpicklingError)
    ∧ (∀ ix m, getFile fs vectorstorePath = some (PFile.pickle ix m) →
      e.load_index fs = Except.ok
        ({ e with index := some ix, id_to_text := m }, fs)) := by
  refine ⟨?_, ?_, ?_, ?_⟩
  · intro h
    simp only [RAGEngine.load_index, h]
  · intro h
    simp only [RAGEngine.load_index, h]
  · intro tx h
    simp only [RAGEngine.load_index, h]
  · intro ix m h
    simp only [RAGEngine.load_index, h]

/-- Witness for C8 (amended): a missing artifact and a corrupt artifact, both
concrete. -/
theorem c8_witness :
    (getFile [] vectorstorePath = none
      ∧ RAGEngine.load_index (RAGEngine.make "docs") []
          = Except.error PyError.fileNotFoundError)
    ∧ (getFile [(vectorstorePath, PFile.corrupt)] vectorstorePath
          = some PFile.corrupt
      ∧ RAGEngine.load_index (RAGEngine.make "docs")
          [(vectorstorePath, PFile.corrupt)]
          = Except.error PyError.unpicklingError) :=
  ⟨⟨rfl, (c8_load_index_behavior (RAGEngine.make "docs") []).1 rfl⟩,
    ⟨by decide,
      (c8_load_index_behavior (RAGEngine.make "docs")
        [(vectorstorePath, PFile.corrupt)]).2.1 (by decide)⟩⟩

/-- C10: every successful `embed_and_store` serializes the new index and
mapping to the fixed relative path `backend/vectorstore.pkl` —
unconditionally overwriting whatever was there, touching no other path, with
no caller-supplied path — and `load_index` reads that same fixed path, its
outcome (loaded index, mapping and error behavior) independent of the
`doc_folder` the engine was constructed with. -/
theorem c10_fixed_artifact_path (enc : PyStr → List Int) (e : RAGEngine)
    (fs : FS) (hne : e.text_chunks ≠ []) :
    (∃ (ix : FaissIndexFlatL2) (m : List (Nat × PyStr)),
      e.embed_and_store enc fs = Except.ok
          ({ e with index := some ix, id_to_text := m },
            setFile fs vectorstorePath (PFile.pickle ix m))
      ∧ getFile (setFile fs vectorstorePath (PFile.pickle ix m))
          vectorstorePath = some (PFile.pickle ix m)
      ∧ (∀ p, p ≠ vectorstorePath →
          getFile (setFile fs vectorstorePath (PFile.pickle ix m)) p
            = getFile fs p))
    ∧ (∀ (e2 : RAGEngine) (f f' : String) (fs2 : FS),
        Except.map (fun r => (r.1.index, r.1.id_to_text, r.2))
            (RAGEngine.load_index { e2 with doc_folder := f } fs2)
          = Except.map (fun r => (r.1.index, r.1.id_to_text, r.2))
              (RAGEngine.load_index { e2 with doc_folder := f' } fs2)) := by
  obtain ⟨c0, cs, hc⟩ : ∃ c0 cs, e.text_chunks = c0 :: cs := by
    cases hx : e.text_chunks with
    | nil => exact absurd hx hne
    | cons a l => exact ⟨a, l, rfl⟩
  constructor
  · exact ⟨{ d := (enc c0).length, vectors := e.text_chunks.map enc },
      e.text_chunks.enum,
      embed_and_store_ok enc e fs c0 cs hc,
      getFile_setFile_self _ _ _,
      fun p hp => getFile_setFile_ne fs vectorstorePath p _ hp⟩
  · intro e2 f f' fs2
    rw [RAGEngine.load_index, RAGEngine.load_index]
    cases getFile fs2 vectorstorePath with
    | none => rfl
    | some pf => cases pf <;> rfl

/-- Witness for C10 at the concrete two-chunk build. -/
theorem c10_witness :
    engA.text_chunks ≠ []
    ∧ ((∃ (ix : FaissIndexFlatL2) (m : List (Nat × PyStr)),
        RAGEngine.embed_and_store enc0 engA [] = Except.ok
            ({ engA with index := some ix, id_to_text := m },
              setFile [] vectorstorePath (PFile.pickle ix m))
        ∧ getFile (setFile [] vectorstorePath (PFile.pickle ix m))
            vectorstorePath = some (PFile.pickle ix m)
        ∧ (∀ p, p ≠ vectorstorePath →
            getFile (setFile [] vectorstorePath (PFile.pickle ix m)) p
              = getFile [] p))
      ∧ (∀ (e2 : RAGEngine) (f f' : String) (fs2 : FS),
          Except.map (fun r => (r.1.index, r.1.id_to_text, r.2))
              (RAGEngine.load_index { e2 with doc_folder := f } fs2)
            = Except.map (fun r => (r.1.index, r.1.id_to_text, r.2))
                (RAGEngine.load_index { e2 with doc_folder := f' } fs2))) :=
  ⟨by decide, c10_fixed_artifact_path enc0 engA [] (by decide)⟩
